import Mathlib

/-!
Verification of the fusion and role-assignment core of the audio-processing
endpoint (`src/flask_app.py`, `process_audio_endpoint`, lines 68-113).

Modelling conventions:
* Python floats (timestamps, durations) are modelled as rationals `ℚ`; every
  claim under study is about exact comparisons, sums and signs, not rounding.
* A Python `dict` is modelled as an insertion-ordered association list
  `List (key × value)` with unique keys: `getD` is `dict.get(k, d)`, `addTo`
  is `d[k] = d.get(k, 0) + v` (update in place if the key exists, append
  otherwise), and `maxPair` is `max(d, key=d.get)` (iterate in insertion
  order, keep the first entry whose value is strictly greater than the best
  so far — so ties are resolved in favour of the earliest-inserted key,
  exactly as CPython's `max` over an insertion-ordered dict).
* `String.trim` models Python's `str.strip()`.
-/

namespace TeachSynch

/-- A diarization turn as produced by `diarization.itertracks(yield_label=True)`:
`turn.start`, `turn.end` (called `stop` here, `end` is reserved in Lean) and the
speaker label. -/
structure DiarizationTurn where
  start : ℚ
  stop : ℚ
  speaker : String
deriving DecidableEq

/-- A transcription segment from `transcription["segments"]`: `segment['start']`,
`segment['end']` (called `stop` here) and `segment['text']`. -/
structure TranscriptionSegment where
  start : ℚ
  stop : ℚ
  text : String
deriving DecidableEq

/-- An entry of `final_transcript` after step 3 of the endpoint:
start, end, stripped text, and the dominant speaker. -/
structure FusedUtterance where
  start : ℚ
  stop : ℚ
  text : String
  speaker : String
deriving DecidableEq

/-- An entry of `final_transcript` after step 4: the fused utterance with the
`speaker_role` key added. -/
structure RoleLabeledUtterance extends FusedUtterance where
  speaker_role : String
deriving DecidableEq

/-- `dict.get(k, d)`: value of the first entry with key `k`, else `d`. -/
def getD : List (String × ℚ) → String → ℚ → ℚ
  | [], _, d => d
  | p :: rest, k, d => if p.1 = k then p.2 else getD rest k d

/-- `dict[k] = dict.get(k, 0) + v`: add `v` to the entry with key `k`,
appending a fresh entry (in insertion order) when the key is absent. -/
def addTo : List (String × ℚ) → String → ℚ → List (String × ℚ)
  | [], k, v => [(k, v)]
  | p :: rest, k, v =>
    if p.1 = k then (p.1, p.2 + v) :: rest else p :: addTo rest k v

/-- `max(dict, key=dict.get)` on a dict with unique keys: walk the entries in
insertion order keeping the entry with strictly greatest value (first one wins
on ties); `none` on the empty dict. -/
def maxPair : List (String × ℚ) → Option (String × ℚ)
  | [] => none
  | p :: rest => some (rest.foldl (fun best q => if q.2 > best.2 then q else best) p)

/-- Lines 76-78: `overlap_duration = max(0, min(segment_end, turn.end) -
max(segment_start, turn.start))`. -/
def overlap_duration (seg : TranscriptionSegment) (turn : DiarizationTurn) : ℚ :=
  let overlap_start := max seg.start turn.start
  let overlap_stop := min seg.stop turn.stop
  max 0 (overlap_stop - overlap_start)

/-- Lines 74-81: the `speaker_times` dict accumulated for one segment over all
diarization turns — only turns with `overlap_duration > 0` contribute. -/
def speaker_times (seg : TranscriptionSegment) (turns : List DiarizationTurn) :
    List (String × ℚ) :=
  turns.foldl
    (fun acc turn =>
      let d := overlap_duration seg turn
      if d > 0 then addTo acc turn.speaker d else acc)
    []

/-- Line 83: `max(speaker_times, key=speaker_times.get) if speaker_times else
"UNKNOWN"`. -/
def dominant_speaker (m : List (String × ℚ)) : String :=
  match maxPair m with
  | some p => p.1
  | none => "UNKNOWN"

/-- Lines 70-90, body of the per-segment loop: build the fused record for one
transcription segment. -/
def fuse_segment (turns : List DiarizationTurn) (seg : TranscriptionSegment) :
    FusedUtterance :=
  { start := seg.start
    stop := seg.stop
    text := seg.text.trim
    speaker := dominant_speaker (speaker_times seg turns) }

/-- Lines 68-90: `final_transcript`, one fused record per transcription segment
in input order. -/
def fuse (segments : List TranscriptionSegment) (turns : List DiarizationTurn) :
    List FusedUtterance :=
  segments.map (fuse_segment turns)

/-- Lines 93-97: `speaker_talk_time[speaker] = speaker_talk_time.get(speaker, 0)
+ (seg['end'] - seg['start'])` over all fused utterances. -/
def speaker_talk_time (utts : List FusedUtterance) : List (String × ℚ) :=
  utts.foldl (fun acc u => addTo acc u.speaker (u.stop - u.start)) []

/-- Line 99: `max(speaker_talk_time, key=speaker_talk_time.get) if
speaker_talk_time else "UNKNOWN"`. -/
def teacher_label (utts : List FusedUtterance) : String :=
  dominant_speaker (speaker_talk_time utts)

/-- Lookup in the `speaker_map` dict (speaker → already-assigned student
label). -/
def lookupStudent (m : List (String × String)) (s : String) : Option String :=
  (m.find? (fun p => p.1 = s)).map (fun p => p.2)

/-- Lines 101-113, the role-assignment loop, carrying `student_counter` and
`speaker_map` through the walk over `final_transcript`:
teacher check first, then known/new student, else `"Unknown"`. -/
def assign_roles_aux (teacher : String) :
    List FusedUtterance → ℕ → List (String × String) → List RoleLabeledUtterance
  | [], _, _ => []
  | u :: rest, student_counter, speaker_map =>
    if u.speaker = teacher then
      ⟨u, "Teacher"⟩ :: assign_roles_aux teacher rest student_counter speaker_map
    else if u.speaker ≠ "UNKNOWN" then
      match lookupStudent speaker_map u.speaker with
      | some lbl => ⟨u, lbl⟩ :: assign_roles_aux teacher rest student_counter speaker_map
      | none =>
        ⟨u, "Student " ++ toString student_counter⟩ ::
          assign_roles_aux teacher rest (student_counter + 1)
            (speaker_map ++ [(u.speaker, "Student " ++ toString student_counter)])
    else
      ⟨u, "Unknown"⟩ :: assign_roles_aux teacher rest student_counter speaker_map

/-- Lines 93-113: full role assignment (teacher identification followed by the
labelling walk with `student_counter = 1` and an empty `speaker_map`). -/
def assign_roles (utts : List FusedUtterance) : List RoleLabeledUtterance :=
  assign_roles_aux (teacher_label utts) utts 1 []

/-! ### Specification-side vocabulary

The following definitions are written in the spec's vocabulary and are only
used inside theorem statements and proofs; the claims relate them to the
definitions above, which are transcribed from the source. -/

/-- The overlap that one turn contributes to one segment's per-speaker overlap
mapping under key `k`: the turn's `overlap_duration` when its speaker is `k`
and the overlap is positive, else nothing. -/
def overlap_contribution (seg : TranscriptionSegment) (k : String)
    (t : DiarizationTurn) : ℚ :=
  if t.speaker = k ∧ 0 < overlap_duration seg t then overlap_duration seg t else 0

/-- The talk time that one utterance contributes to speaker `k`:
`end - start` when its speaker is `k`, else nothing. -/
def talk_contribution (k : String) (u : FusedUtterance) : ℚ :=
  if u.speaker = k then u.stop - u.start else 0

/-- The distinct non-teacher, non-`"UNKNOWN"` speakers of a run of utterances,
in order of first appearance, continuing a list `seen` of speakers already
encountered. -/
def student_order (teacher : String) : List String → List FusedUtterance → List String
  | seen, [] => seen
  | seen, u :: rest =>
    if u.speaker ≠ teacher ∧ u.speaker ≠ "UNKNOWN" ∧ u.speaker ∉ seen then
      student_order teacher (seen ++ [u.speaker]) rest
    else
      student_order teacher seen rest

/-- Index of the first occurrence of `s` (length of the list when absent). -/
def firstIdx : List String → String → ℕ
  | [], _ => 0
  | a :: rest, s => if a = s then 0 else firstIdx rest s + 1

/-- The role the spec prescribes for an utterance, given the teacher id and the
first-appearance order of student speakers: `"Teacher"` for the teacher's
utterances, `"Unknown"` for unmatched ones, and `"Student N"` where `N` is the
speaker's 1-based position in the first-appearance order. -/
def roleSpec (teacher : String) (order : List String) (u : FusedUtterance) : String :=
  if u.speaker = teacher then "Teacher"
  else if u.speaker = "UNKNOWN" then "Unknown"
  else "Student " ++ toString (firstIdx order u.speaker + 1)

/-- The `speaker_map` dict as it stands after the students listed in `seen`
have been numbered `n, n+1, ...` in order. -/
def student_map_of : List String → ℕ → List (String × String)
  | [], _ => []
  | s :: rest, n => (s, "Student " ++ toString n) :: student_map_of rest (n + 1)

/-! ### Dictionary lemmas -/

theorem getD_addTo (m : List (String × ℚ)) (k k' : String) (v d : ℚ) :
    getD (addTo m k v) k' d = if k' = k then getD m k 0 + v else getD m k' d := by
  induction m with
  | nil =>
    by_cases h : k' = k
    · simp [addTo, getD, h]
    · have h' : k ≠ k' := fun hh => h hh.symm
      simp [addTo, getD, h, h']
  | cons p rest ih =>
    by_cases hpk : p.1 = k
    · by_cases hk : k' = k
      · simp [addTo, getD, hpk, hk, hpk.trans hk.symm]
      · have h' : k ≠ k' := fun hh => hk hh.symm
        simp [addTo, getD, hpk, hk, h']
    · by_cases hpk' : p.1 = k'
      · have hk : k' ≠ k := fun h => hpk (hpk'.trans h)
        simp [addTo, getD, hpk, hpk', hk]
      · simp [addTo, getD, hpk, hpk', ih]

theorem mem_addTo (m : List (String × ℚ)) (k : String) (v : ℚ) (q : String × ℚ) :
    q ∈ addTo m k v → q.1 = k ∨ q ∈ m := by
  induction m with
  | nil => intro h; simp [addTo] at h; simp [h]
  | cons p rest ih =>
    by_cases hpk : p.1 = k
    · intro h
      simp [addTo, hpk] at h
      rcases h with h | h
      · exact Or.inl (by simp [h, hpk])
      · exact Or.inr (List.mem_cons_of_mem _ h)
    · intro h
      simp [addTo, hpk] at h
      rcases h with h | h
      · exact Or.inr (by simp [h])
      · rcases ih h with h' | h'
        · exact Or.inl h'
        · exact Or.inr (List.mem_cons_of_mem _ h')

theorem pos_addTo (m : List (String × ℚ)) (k : String) (v : ℚ)
    (hm : ∀ q ∈ m, 0 < q.2) (hv : 0 < v) : ∀ q ∈ addTo m k v, 0 < q.2 := by
  induction m with
  | nil => intro q hq; simp [addTo] at hq; simp [hq, hv]
  | cons p rest ih =>
    intro q hq
    by_cases hpk : p.1 = k
    · simp [addTo, hpk] at hq
      rcases hq with hq | hq
      · have hp := hm p (List.mem_cons_self _ _)
        simp [hq]
        linarith
      · exact hm q (List.mem_cons_of_mem _ hq)
    · simp [addTo, hpk] at hq
      rcases hq with hq | hq
      · exact hq ▸ hm p (List.mem_cons_self _ _)
      · exact ih (fun q' hq' => hm q' (List.mem_cons_of_mem _ hq')) q hq

theorem addTo_ne_nil (m : List (String × ℚ)) (k : String) (v : ℚ) :
    addTo m k v ≠ [] := by
  cases m with
  | nil => simp [addTo]
  | cons p rest =>
    by_cases hpk : p.1 = k <;> simp [addTo, hpk]

theorem hasKey_addTo_self (m : List (String × ℚ)) (k : String) (v : ℚ) :
    ∃ q ∈ addTo m k v, q.1 = k := by
  induction m with
  | nil => exact ⟨(k, v), by simp [addTo]⟩
  | cons p rest ih =>
    by_cases hpk : p.1 = k
    · exact ⟨(p.1, p.2 + v), by simp [addTo, hpk]⟩
    · obtain ⟨q, hq, hqk⟩ := ih
      exact ⟨q, by simp [addTo, hpk, hq], hqk⟩

theorem hasKey_addTo_mono (m : List (String × ℚ)) (k k' : String) (v : ℚ)
    (h : ∃ q ∈ m, q.1 = k') : ∃ q ∈ addTo m k v, q.1 = k' := by
  induction m with
  | nil => simp at h
  | cons p rest ih =>
    obtain ⟨q, hq, hqk⟩ := h
    by_cases hpk : p.1 = k
    · rcases List.mem_cons.1 hq with heq | hq'
      · exact ⟨(p.1, p.2 + v), by simp [addTo, hpk], heq ▸ hqk⟩
      · exact ⟨q, by simp [addTo, hpk, hq'], hqk⟩
    · rcases List.mem_cons.1 hq with heq | hq'
      · exact ⟨p, by simp [addTo, hpk], heq ▸ hqk⟩
      · obtain ⟨q', hq'', hq'k⟩ := ih ⟨q, hq', hqk⟩
        exact ⟨q', by simp [addTo, hpk, hq''], hq'k⟩

theorem keys_nodup_addTo (m : List (String × ℚ)) (k : String) (v : ℚ)
    (h : (m.map Prod.fst).Nodup) : ((addTo m k v).map Prod.fst).Nodup := by
  induction m with
  | nil => simp [addTo]
  | cons p rest ih =>
    by_cases hpk : p.1 = k
    · simpa [addTo, hpk] using h
    · simp only [List.map_cons, List.nodup_cons] at h
      have hkeys : ∀ k', k' ∈ (addTo rest k v).map Prod.fst → k' ∈ rest.map Prod.fst ∨ k' = k := by
        intro k' hk'
        obtain ⟨q, hq, rfl⟩ := List.mem_map.1 hk'
        rcases mem_addTo rest k v q hq with h' | h'
        · exact Or.inr h'
        · exact Or.inl (List.mem_map_of_mem _ h')
      have hstep : addTo (p :: rest) k v = p :: addTo rest k v := by
        simp [addTo, hpk]
      rw [hstep, List.map_cons, List.nodup_cons]
      refine ⟨fun hc => ?_, ih h.2⟩
      rcases hkeys p.1 hc with h' | h'
      · exact h.1 h'
      · exact hpk h'

theorem getD_of_mem_nodup (m : List (String × ℚ)) (q : String × ℚ) (d : ℚ)
    (hnd : (m.map Prod.fst).Nodup) (hq : q ∈ m) : getD m q.1 d = q.2 := by
  induction m with
  | nil => simp at hq
  | cons p rest ih =>
    simp only [List.map_cons, List.nodup_cons] at hnd
    rcases List.mem_cons.1 hq with rfl | hq'
    · simp [getD]
    · have hne : p.1 ≠ q.1 := fun h => hnd.1 (h ▸ List.mem_map_of_mem _ hq')
      simp [getD, hne, ih hnd.2 hq']

theorem mem_getD_of_hasKey (m : List (String × ℚ)) (k : String) (d : ℚ)
    (h : ∃ q ∈ m, q.1 = k) : (k, getD m k d) ∈ m := by
  induction m with
  | nil => simp at h
  | cons p rest ih =>
    by_cases hpk : p.1 = k
    · have hg : getD (p :: rest) k d = p.2 := by simp [getD, hpk]
      have heq : (k, getD (p :: rest) k d) = p := by rw [hg, ← hpk]
      rw [heq]
      exact List.mem_cons_self _ _
    · obtain ⟨q, hq, hqk⟩ := h
      rcases List.mem_cons.1 hq with heq | hq'
      · exact absurd (heq ▸ hqk) hpk
      · exact List.mem_cons_of_mem _ (by simpa [getD, hpk] using ih ⟨q, hq', hqk⟩)

/-! ### Lemmas on `maxPair` (the `max(dict, key=dict.get)` idiom) -/

theorem foldl_max_mem (l : List (String × ℚ)) (b : String × ℚ) :
    l.foldl (fun best q => if q.2 > best.2 then q else best) b = b ∨
      l.foldl (fun best q => if q.2 > best.2 then q else best) b ∈ l := by
  induction l generalizing b with
  | nil => exact Or.inl rfl
  | cons q rest ih =>
    simp only [List.foldl_cons]
    rcases ih (if q.2 > b.2 then q else b) with h | h
    · rw [h]
      by_cases hq : q.2 > b.2
      · simp only [hq, if_pos]
        exact Or.inr (List.mem_cons_self _ _)
      · simp only [hq, if_neg, not_false_iff]
        exact Or.inl (by simp [hq])
    · exact Or.inr (List.mem_cons_of_mem _ h)

theorem foldl_max_ge_init (l : List (String × ℚ)) (b : String × ℚ) :
    b.2 ≤ (l.foldl (fun best q => if q.2 > best.2 then q else best) b).2 := by
  induction l generalizing b with
  | nil => exact le_refl _
  | cons q rest ih =>
    simp only [List.foldl_cons]
    refine le_trans ?_ (ih (if q.2 > b.2 then q else b))
    by_cases hq : q.2 > b.2
    · simp [hq, le_of_lt hq]
    · simp [hq]

theorem foldl_max_ge_mem (l : List (String × ℚ)) (b : String × ℚ) :
    ∀ q ∈ l, q.2 ≤ (l.foldl (fun best q => if q.2 > best.2 then q else best) b).2 := by
  induction l generalizing b with
  | nil => intro q hq; simp at hq
  | cons q0 rest ih =>
    intro q hq
    simp only [List.foldl_cons]
    rcases List.mem_cons.1 hq with heq | hq'
    · refine le_trans ?_ (foldl_max_ge_init rest (if q0.2 > b.2 then q0 else b))
      subst heq
      by_cases h0 : q.2 > b.2
      · simp [h0]
      · simp [h0]
        exact le_of_not_lt h0
    · exact ih _ q hq'

theorem maxPair_mem (m : List (String × ℚ)) (p : String × ℚ)
    (h : maxPair m = some p) : p ∈ m := by
  cases m with
  | nil => simp [maxPair] at h
  | cons q rest =>
    simp only [maxPair, Option.some.injEq] at h
    rcases foldl_max_mem rest q with h' | h'
    · rw [← h, h']
      exact List.mem_cons_self _ _
    · rw [← h]
      exact List.mem_cons_of_mem _ h'

theorem maxPair_ge (m : List (String × ℚ)) (p : String × ℚ)
    (h : maxPair m = some p) : ∀ q ∈ m, q.2 ≤ p.2 := by
  cases m with
  | nil => simp [maxPair] at h
  | cons q0 rest =>
    intro q hq
    simp only [maxPair, Option.some.injEq] at h
    rcases List.mem_cons.1 hq with heq | hq'
    · rw [← h, heq]
      exact foldl_max_ge_init rest q0
    · rw [← h]
      exact foldl_max_ge_mem rest q0 q hq'

theorem maxPair_eq_none (m : List (String × ℚ)) : maxPair m = none ↔ m = [] := by
  cases m <;> simp [maxPair]

theorem maxPair_key_of_strict (m : List (String × ℚ)) (k : String) (v : ℚ)
    (hmem : (k, v) ∈ m) (hstrict : ∀ q ∈ m, q.1 ≠ k → q.2 < v) :
    ∃ p, maxPair m = some p ∧ p.1 = k := by
  have hne : m ≠ [] := fun h => by simp [h] at hmem
  obtain ⟨p, hp⟩ : ∃ p, maxPair m = some p := by
    cases hmp : maxPair m with
    | none => exact absurd ((maxPair_eq_none m).1 hmp) hne
    | some p => exact ⟨p, rfl⟩
  refine ⟨p, hp, ?_⟩
  by_contra hpk
  have h1 : p.2 < v := hstrict p (maxPair_mem m p hp) hpk
  have h2 : v ≤ p.2 := maxPair_ge m p hp (k, v) hmem
  exact absurd (lt_of_le_of_lt h2 h1) (lt_irrefl _)

/-! ### Lemmas on the overlap matcher -/

theorem getD_speaker_times_aux (seg : TranscriptionSegment) :
    ∀ (turns : List DiarizationTurn) (acc : List (String × ℚ)) (k : String),
      getD (turns.foldl (fun acc turn =>
          let d := overlap_duration seg turn
          if d > 0 then addTo acc turn.speaker d else acc) acc) k 0
        = getD acc k 0 + (turns.map (overlap_contribution seg k)).sum := by
  intro turns
  induction turns with
  | nil => intro acc k; simp
  | cons t ts ih =>
    intro acc k
    simp only [List.foldl_cons, List.map_cons, List.sum_cons]
    rw [ih]
    by_cases hd : overlap_duration seg t > 0
    · simp only [hd, if_pos]
      rw [getD_addTo]
      by_cases hk : k = t.speaker
      · simp only [hk, if_pos, overlap_contribution, gt_iff_lt] at hd ⊢
        simp [hd]
        ring
      · have hk' : ¬t.speaker = k := fun h => hk h.symm
        simp only [hk, if_neg, not_false_iff, overlap_contribution]
        simp [hk']
    · simp only [hd, if_neg, not_false_iff, overlap_contribution, gt_iff_lt] at hd ⊢
      simp [hd]

theorem getD_speaker_times (seg : TranscriptionSegment) (turns : List DiarizationTurn)
    (k : String) :
    getD (speaker_times seg turns) k 0 = (turns.map (overlap_contribution seg k)).sum := by
  have h := getD_speaker_times_aux seg turns [] k
  simpa [speaker_times, getD] using h

theorem speaker_times_pos_aux (seg : TranscriptionSegment) :
    ∀ (turns : List DiarizationTurn) (acc : List (String × ℚ)),
      (∀ q ∈ acc, 0 < q.2) →
      ∀ q ∈ turns.foldl (fun acc turn =>
          let d := overlap_duration seg turn
          if d > 0 then addTo acc turn.speaker d else acc) acc, 0 < q.2 := by
  intro turns
  induction turns with
  | nil => intro acc hacc; exact hacc
  | cons t ts ih =>
    intro acc hacc
    simp only [List.foldl_cons]
    by_cases hd : overlap_duration seg t > 0
    · simp only [hd, if_pos]
      exact ih _ (pos_addTo acc t.speaker _ hacc hd)
    · simp only [hd, if_neg, not_false_iff]
      exact ih _ hacc

theorem speaker_times_pos (seg : TranscriptionSegment) (turns : List DiarizationTurn) :
    ∀ q ∈ speaker_times seg turns, 0 < q.2 :=
  speaker_times_pos_aux seg turns [] (by simp)

theorem speaker_times_key_aux (seg : TranscriptionSegment) :
    ∀ (turns : List DiarizationTurn) (acc : List (String × ℚ)) (q : String × ℚ),
      q ∈ turns.foldl (fun acc turn =>
          let d := overlap_duration seg turn
          if d > 0 then addTo acc turn.speaker d else acc) acc →
      q ∈ acc ∨ ∃ t ∈ turns, t.speaker = q.1 ∧ 0 < overlap_duration seg t := by
  intro turns
  induction turns with
  | nil => intro acc q hq; exact Or.inl hq
  | cons t ts ih =>
    intro acc q hq
    simp only [List.foldl_cons] at hq
    by_cases hd : overlap_duration seg t > 0
    · simp only [hd, if_pos] at hq
      rcases ih _ q hq with h | h
      · rcases mem_addTo acc t.speaker _ q h with h' | h'
        · exact Or.inr ⟨t, List.mem_cons_self _ _, h'.symm, hd⟩
        · exact Or.inl h'
      · obtain ⟨t', ht', hsp, hd'⟩ := h
        exact Or.inr ⟨t', List.mem_cons_of_mem _ ht', hsp, hd'⟩
    · simp only [hd, if_neg, not_false_iff] at hq
      rcases ih _ q hq with h | h
      · exact Or.inl h
      · obtain ⟨t', ht', hsp, hd'⟩ := h
        exact Or.inr ⟨t', List.mem_cons_of_mem _ ht', hsp, hd'⟩

theorem speaker_times_key (seg : TranscriptionSegment) (turns : List DiarizationTurn) :
    ∀ q ∈ speaker_times seg turns,
      ∃ t ∈ turns, t.speaker = q.1 ∧ 0 < overlap_duration seg t := by
  intro q hq
  rcases speaker_times_key_aux seg turns [] q hq with h | h
  · simp at h
  · exact h

theorem speaker_times_eq_nil (seg : TranscriptionSegment) (turns : List DiarizationTurn)
    (h : ∀ t ∈ turns, ¬0 < overlap_duration seg t) : speaker_times seg turns = [] := by
  unfold speaker_times
  induction turns with
  | nil => rfl
  | cons t ts ih =>
    have hd : ¬overlap_duration seg t > 0 := h t (List.mem_cons_self _ _)
    simp only [List.foldl_cons, hd, if_neg, not_false_iff]
    exact ih (fun t' ht' => h t' (List.mem_cons_of_mem _ ht'))

theorem speaker_times_ne_nil (seg : TranscriptionSegment) (turns : List DiarizationTurn)
    (t : DiarizationTurn) (ht : t ∈ turns) (hd : 0 < overlap_duration seg t) :
    speaker_times seg turns ≠ [] := by
  intro hnil
  have hsum := getD_speaker_times seg turns t.speaker
  rw [hnil] at hsum
  simp only [getD] at hsum
  have hnonneg : ∀ x ∈ turns.map (overlap_contribution seg t.speaker), 0 ≤ x := by
    intro x hx
    obtain ⟨t', _, rfl⟩ := List.mem_map.1 hx
    unfold overlap_contribution
    by_cases hc : t'.speaker = t.speaker ∧ 0 < overlap_duration seg t'
    · simp [hc]; exact le_of_lt hc.2
    · simp [hc]
  have hmem : overlap_contribution seg t.speaker t ∈
      turns.map (overlap_contribution seg t.speaker) := List.mem_map_of_mem _ ht
  have hle := List.single_le_sum hnonneg _ hmem
  have hpos : 0 < overlap_contribution seg t.speaker t := by
    unfold overlap_contribution
    simp [hd]
  rw [← hsum] at hle
  exact absurd (lt_of_lt_of_le hpos hle) (lt_irrefl _)

/-! ### Lemmas on the talk-time accumulator -/

theorem getD_speaker_talk_time_aux :
    ∀ (utts : List FusedUtterance) (acc : List (String × ℚ)) (k : String),
      getD (utts.foldl (fun acc u => addTo acc u.speaker (u.stop - u.start)) acc) k 0
        = getD acc k 0 + (utts.map (talk_contribution k)).sum := by
  intro utts
  induction utts with
  | nil => intro acc k; simp
  | cons u rest ih =>
    intro acc k
    simp only [List.foldl_cons, List.map_cons, List.sum_cons]
    rw [ih, getD_addTo]
    by_cases hk : k = u.speaker
    · subst hk
      simp [talk_contribution, add_assoc]
    · have hk' : ¬u.speaker = k := fun h => hk h.symm
      simp only [hk, if_neg, not_false_iff, talk_contribution]
      simp [hk']

theorem getD_speaker_talk_time (utts : List FusedUtterance) (k : String) :
    getD (speaker_talk_time utts) k 0 = (utts.map (talk_contribution k)).sum := by
  have h := getD_speaker_talk_time_aux utts [] k
  simpa [speaker_talk_time, getD] using h

theorem speaker_talk_time_key_aux :
    ∀ (utts : List FusedUtterance) (acc : List (String × ℚ)) (q : String × ℚ),
      q ∈ utts.foldl (fun acc u => addTo acc u.speaker (u.stop - u.start)) acc →
      q ∈ acc ∨ ∃ u ∈ utts, u.speaker = q.1 := by
  intro utts
  induction utts with
  | nil => intro acc q hq; exact Or.inl hq
  | cons u rest ih =>
    intro acc q hq
    simp only [List.foldl_cons] at hq
    rcases ih _ q hq with h | h
    · rcases mem_addTo acc u.speaker _ q h with h' | h'
      · exact Or.inr ⟨u, List.mem_cons_self _ _, h'.symm⟩
      · exact Or.inl h'
    · obtain ⟨u', hu', hsp⟩ := h
      exact Or.inr ⟨u', List.mem_cons_of_mem _ hu', hsp⟩

theorem speaker_talk_time_key (utts : List FusedUtterance) :
    ∀ q ∈ speaker_talk_time utts, ∃ u ∈ utts, u.speaker = q.1 := by
  intro q hq
  rcases speaker_talk_time_key_aux utts [] q hq with h | h
  · simp at h
  · exact h

theorem foldl_addTo_hasKey :
    ∀ (utts : List FusedUtterance) (acc : List (String × ℚ)) (k : String),
      (∃ q ∈ acc, q.1 = k) →
      ∃ q ∈ utts.foldl (fun acc u => addTo acc u.speaker (u.stop - u.start)) acc, q.1 = k := by
  intro utts
  induction utts with
  | nil => intro acc k h; exact h
  | cons u rest ih =>
    intro acc k h
    simp only [List.foldl_cons]
    exact ih _ k (hasKey_addTo_mono acc u.speaker k _ h)

theorem speaker_talk_time_hasKey_aux :
    ∀ (utts : List FusedUtterance) (acc : List (String × ℚ)) (u : FusedUtterance),
      u ∈ utts →
      ∃ q ∈ utts.foldl (fun acc u => addTo acc u.speaker (u.stop - u.start)) acc,
        q.1 = u.speaker := by
  intro utts
  induction utts with
  | nil => intro acc u hu; simp at hu
  | cons u0 rest ih =>
    intro acc u hu
    simp only [List.foldl_cons]
    rcases List.mem_cons.1 hu with heq | hu'
    · subst heq
      exact foldl_addTo_hasKey rest _ u.speaker (hasKey_addTo_self _ _ _)
    · exact ih _ u hu'

theorem speaker_talk_time_hasKey (utts : List FusedUtterance) (u : FusedUtterance)
    (hu : u ∈ utts) : ∃ q ∈ speaker_talk_time utts, q.1 = u.speaker :=
  speaker_talk_time_hasKey_aux utts [] u hu

theorem speaker_talk_time_nodup (utts : List FusedUtterance) :
    ((speaker_talk_time utts).map Prod.fst).Nodup := by
  unfold speaker_talk_time
  have haux : ∀ (l : List FusedUtterance) (acc : List (String × ℚ)),
      (acc.map Prod.fst).Nodup →
      ((l.foldl (fun acc u => addTo acc u.speaker (u.stop - u.start)) acc).map Prod.fst).Nodup := by
    intro l
    induction l with
    | nil => intro acc h; exact h
    | cons u rest ih =>
      intro acc h
      simp only [List.foldl_cons]
      exact ih _ (keys_nodup_addTo acc u.speaker _ h)
  exact haux utts [] (by simp)

/-! ### Lemmas on role assignment -/

theorem lookupStudent_student_map_of_mem :
    ∀ (seen : List String) (n : ℕ) (s : String), s ∈ seen →
      lookupStudent (student_map_of seen n) s
        = some ("Student " ++ toString (n + firstIdx seen s)) := by
  intro seen
  induction seen with
  | nil => intro n s hs; simp at hs
  | cons a rest ih =>
    intro n s hs
    by_cases ha : a = s
    · simp [student_map_of, lookupStudent, List.find?, firstIdx, ha]
    · have hs' : s ∈ rest := by
        rcases List.mem_cons.1 hs with heq | h
        · exact absurd heq.symm ha
        · exact h
      have := ih (n + 1) s hs'
      simp only [student_map_of, lookupStudent, List.find?] at this ⊢
      have hba : (decide (a = s)) = false := by simp [ha]
      rw [hba]
      simp only [firstIdx, ha, if_neg, not_false_iff]
      rw [show n + (firstIdx rest s + 1) = n + 1 + firstIdx rest s by omega]
      exact this

theorem lookupStudent_student_map_of_not_mem :
    ∀ (seen : List String) (n : ℕ) (s : String), s ∉ seen →
      lookupStudent (student_map_of seen n) s = none := by
  intro seen
  induction seen with
  | nil => intro n s _; simp [student_map_of, lookupStudent]
  | cons a rest ih =>
    intro n s hs
    have ha : a ≠ s := fun h => hs (h ▸ List.mem_cons_self _ _)
    have hs' : s ∉ rest := fun h => hs (List.mem_cons_of_mem _ h)
    have hba : (decide (a = s)) = false := by simp [ha]
    simp only [student_map_of, lookupStudent, List.find?, hba]
    exact ih (n + 1) s hs'

theorem student_map_of_append :
    ∀ (seen : List String) (n : ℕ) (s : String),
      student_map_of (seen ++ [s]) n
        = student_map_of seen n ++ [(s, "Student " ++ toString (n + seen.length))] := by
  intro seen
  induction seen with
  | nil => intro n s; simp [student_map_of]
  | cons a rest ih =>
    intro n s
    have hstep : (a :: rest) ++ [s] = a :: (rest ++ [s]) := rfl
    rw [hstep]
    simp only [student_map_of, List.length_cons]
    rw [ih (n + 1) s, show n + (rest.length + 1) = n + 1 + rest.length by omega]
    simp

theorem student_order_extends (teacher : String) :
    ∀ (utts : List FusedUtterance) (seen : List String),
      ∃ ext, student_order teacher seen utts = seen ++ ext := by
  intro utts
  induction utts with
  | nil => intro seen; exact ⟨[], by simp [student_order]⟩
  | cons u rest ih =>
    intro seen
    by_cases hc : u.speaker ≠ teacher ∧ u.speaker ≠ "UNKNOWN" ∧ u.speaker ∉ seen
    · obtain ⟨ext, hext⟩ := ih (seen ++ [u.speaker])
      refine ⟨[u.speaker] ++ ext, ?_⟩
      show (if u.speaker ≠ teacher ∧ u.speaker ≠ "UNKNOWN" ∧ u.speaker ∉ seen then
          student_order teacher (seen ++ [u.speaker]) rest
        else student_order teacher seen rest) = seen ++ ([u.speaker] ++ ext)
      rw [if_pos hc, hext, List.append_assoc]
    · obtain ⟨ext, hext⟩ := ih seen
      refine ⟨ext, ?_⟩
      show (if u.speaker ≠ teacher ∧ u.speaker ≠ "UNKNOWN" ∧ u.speaker ∉ seen then
          student_order teacher (seen ++ [u.speaker]) rest
        else student_order teacher seen rest) = seen ++ ext
      rw [if_neg hc, hext]

theorem firstIdx_append_left :
    ∀ (l₁ l₂ : List String) (s : String), s ∈ l₁ →
      firstIdx (l₁ ++ l₂) s = firstIdx l₁ s := by
  intro l₁
  induction l₁ with
  | nil => intro l₂ s hs; simp at hs
  | cons a rest ih =>
    intro l₂ s hs
    by_cases ha : a = s
    · simp [firstIdx, ha]
    · have hs' : s ∈ rest := by
        rcases List.mem_cons.1 hs with heq | h
        · exact absurd heq.symm ha
        · exact h
      simp [firstIdx, ha, ih l₂ s hs']

theorem firstIdx_append_self :
    ∀ (l₁ l₂ : List String) (s : String), s ∉ l₁ →
      firstIdx (l₁ ++ s :: l₂) s = l₁.length := by
  intro l₁
  induction l₁ with
  | nil => intro l₂ s _; simp [firstIdx]
  | cons a rest ih =>
    intro l₂ s hs
    have ha : a ≠ s := fun h => hs (h ▸ List.mem_cons_self _ _)
    have hs' : s ∉ rest := fun h => hs (List.mem_cons_of_mem _ h)
    simp [firstIdx, ha, ih l₂ s hs']

/-- Characterization of the labelling walk: starting from the state reached
after numbering the students in `seen`, every utterance is labelled according
to `roleSpec` with the student order extended from `seen`. -/
theorem assign_roles_aux_eq (teacher : String) :
    ∀ (utts : List FusedUtterance) (seen : List String),
      assign_roles_aux teacher utts (seen.length + 1) (student_map_of seen 1)
        = utts.map (fun u => ⟨u, roleSpec teacher (student_order teacher seen utts) u⟩) := by
  intro utts
  induction utts with
  | nil => intro seen; rfl
  | cons u rest ih =>
    intro seen
    have hunfold : assign_roles_aux teacher (u :: rest) (seen.length + 1) (student_map_of seen 1)
        = if u.speaker = teacher then
            ⟨u, "Teacher"⟩ ::
              assign_roles_aux teacher rest (seen.length + 1) (student_map_of seen 1)
          else if u.speaker ≠ "UNKNOWN" then
            match lookupStudent (student_map_of seen 1) u.speaker with
            | some lbl =>
              ⟨u, lbl⟩ :: assign_roles_aux teacher rest (seen.length + 1) (student_map_of seen 1)
            | none =>
              ⟨u, "Student " ++ toString (seen.length + 1)⟩ ::
                assign_roles_aux teacher rest (seen.length + 1 + 1)
                  (student_map_of seen 1 ++
                    [(u.speaker, "Student " ++ toString (seen.length + 1))])
          else
            ⟨u, "Unknown"⟩ ::
              assign_roles_aux teacher rest (seen.length + 1) (student_map_of seen 1) := rfl
    have hordunfold : student_order teacher seen (u :: rest)
        = if u.speaker ≠ teacher ∧ u.speaker ≠ "UNKNOWN" ∧ u.speaker ∉ seen then
            student_order teacher (seen ++ [u.speaker]) rest
          else student_order teacher seen rest := rfl
    rw [List.map_cons, hunfold]
    by_cases ht : u.speaker = teacher
    · rw [if_pos ht]
      have hord : student_order teacher seen (u :: rest) = student_order teacher seen rest := by
        rw [hordunfold, if_neg (by simp [ht])]
      rw [hord]
      congr 1
      · simp [roleSpec, ht]
      · exact ih seen
    · by_cases hu : u.speaker = "UNKNOWN"
      · rw [if_neg ht, if_neg (not_not_intro hu)]
        have hord : student_order teacher seen (u :: rest) = student_order teacher seen rest := by
          rw [hordunfold, if_neg (by simp [hu])]
        rw [hord]
        congr 1
        · have ht' : ¬("UNKNOWN" = teacher) := hu ▸ ht
          simp [roleSpec, hu, ht']
        · exact ih seen
      · by_cases hmem : u.speaker ∈ seen
        · rw [if_neg ht, if_pos hu, lookupStudent_student_map_of_mem seen 1 u.speaker hmem]
          have hord : student_order teacher seen (u :: rest) = student_order teacher seen rest := by
            rw [hordunfold, if_neg (by simp [hmem])]
          rw [hord]
          show (⟨u, "Student " ++ toString (1 + firstIdx seen u.speaker)⟩ : RoleLabeledUtterance) ::
              assign_roles_aux teacher rest (seen.length + 1) (student_map_of seen 1) = _
          congr 1
          · obtain ⟨ext, hext⟩ := student_order_extends teacher rest seen
            have hidx : firstIdx (student_order teacher seen rest) u.speaker
                = firstIdx seen u.speaker := by
              rw [hext]
              exact firstIdx_append_left seen ext u.speaker hmem
            simp [roleSpec, ht, hu, hidx, Nat.add_comm]
          · exact ih seen
        · rw [if_neg ht, if_pos hu, lookupStudent_student_map_of_not_mem seen 1 u.speaker hmem]
          have hord : student_order teacher seen (u :: rest)
              = student_order teacher (seen ++ [u.speaker]) rest := by
            rw [hordunfold, if_pos ⟨ht, hu, hmem⟩]
          rw [hord]
          show (⟨u, "Student " ++ toString (seen.length + 1)⟩ : RoleLabeledUtterance) ::
              assign_roles_aux teacher rest (seen.length + 1 + 1)
                (student_map_of seen 1 ++
                  [(u.speaker, "Student " ++ toString (seen.length + 1))]) = _
          have hmap : student_map_of seen 1 ++
                [(u.speaker, "Student " ++ toString (seen.length + 1))]
              = student_map_of (seen ++ [u.speaker]) 1 := by
            rw [student_map_of_append seen 1 u.speaker, Nat.add_comm 1 seen.length]
          have hcount : seen.length + 1 + 1 = (seen ++ [u.speaker]).length + 1 := by simp
          rw [hmap, hcount, ih (seen ++ [u.speaker])]
          congr 1
          obtain ⟨ext, hext⟩ := student_order_extends teacher rest (seen ++ [u.speaker])
          have hidx : firstIdx (student_order teacher (seen ++ [u.speaker]) rest) u.speaker
              = seen.length := by
            rw [hext, List.append_assoc, List.singleton_append]
            exact firstIdx_append_self seen ext u.speaker hmem
          simp [roleSpec, ht, hu, hidx]

/-- Master characterization of lines 93-113: each utterance is labelled by
`roleSpec` relative to the computed teacher and the first-appearance order of
student speakers. -/
theorem assign_roles_eq (utts : List FusedUtterance) :
    assign_roles utts
      = utts.map (fun u =>
          ⟨u, roleSpec (teacher_label utts)
                (student_order (teacher_label utts) [] utts) u⟩) := by
  have h := assign_roles_aux_eq (teacher_label utts) utts []
  simpa [assign_roles, student_map_of] using h

/-- Role assignment only adds the `speaker_role` field: stripping it returns
the input unchanged. -/
theorem assign_roles_map_toFused (utts : List FusedUtterance) :
    (assign_roles utts).map (fun r => r.toFusedUtterance) = utts := by
  rw [assign_roles_eq, List.map_map]
  exact List.map_id utts

/-- Every output record whose speaker equals the computed teacher label is
labelled `"Teacher"` (line 105-106 is the first branch of the walk). -/
theorem role_of_teacher_speaker (utts : List FusedUtterance) :
    ∀ r ∈ assign_roles utts, r.speaker = teacher_label utts → r.speaker_role = "Teacher" := by
  intro r hr hsp
  rw [assign_roles_eq] at hr
  obtain ⟨u, hu, rfl⟩ := List.mem_map.1 hr
  simp only [roleSpec]
  rw [if_pos hsp]

/-- If some speaker `A` occurs in the input and strictly dominates every other
occurring speaker in aggregate talk time, then `A` is the computed teacher. -/
theorem teacher_label_of_strict (utts : List FusedUtterance) (A : String)
    (hA : ∃ u ∈ utts, u.speaker = A)
    (hdom : ∀ B : String, (∃ u ∈ utts, u.speaker = B) → B ≠ A →
      (utts.map (talk_contribution B)).sum < (utts.map (talk_contribution A)).sum) :
    teacher_label utts = A := by
  obtain ⟨u, hu, hus⟩ := hA
  obtain ⟨q, hq, hqk⟩ := speaker_talk_time_hasKey utts u hu
  have hkeyA : ∃ q ∈ speaker_talk_time utts, q.1 = A := ⟨q, hq, hqk.trans hus⟩
  have hmemA : (A, getD (speaker_talk_time utts) A 0) ∈ speaker_talk_time utts :=
    mem_getD_of_hasKey _ A 0 hkeyA
  have hgA : getD (speaker_talk_time utts) A 0 = (utts.map (talk_contribution A)).sum :=
    getD_speaker_talk_time utts A
  have hstrict : ∀ p ∈ speaker_talk_time utts, p.1 ≠ A →
      p.2 < getD (speaker_talk_time utts) A 0 := by
    intro p hp hpA
    obtain ⟨u', hu', hu's⟩ := speaker_talk_time_key utts p hp
    have hp2 : p.2 = getD (speaker_talk_time utts) p.1 0 :=
      (getD_of_mem_nodup _ p 0 (speaker_talk_time_nodup utts) hp).symm
    rw [hp2, getD_speaker_talk_time, hgA]
    exact hdom p.1 ⟨u', hu', hu's⟩ hpA
  obtain ⟨p, hmp, hpk⟩ := maxPair_key_of_strict (speaker_talk_time utts) A _ hmemA hstrict
  unfold teacher_label dominant_speaker
  rw [hmp]
  exact hpk

/-! ### The claims -/

/-- C1: for every transcription-segment span and every collection of
diarization turns, the overlap matcher (i) stores under each speaker `k` the
sum of `max(0, min(segment.end, turn.end) - max(segment.start, turn.start))`
over exactly those of `k`'s turns whose overlap is positive (so a speaker with
several overlapping turns has all its overlaps added), (ii) holds an entry for
a speaker only if that speaker contributed positive overlap — hence no value is
negative — and (iii) is empty when no turn overlaps the segment. -/
theorem overlap_matcher_correct (seg : TranscriptionSegment)
    (turns : List DiarizationTurn) :
    (∀ k, getD (speaker_times seg turns) k 0
        = (turns.map (overlap_contribution seg k)).sum)
    ∧ (∀ q ∈ speaker_times seg turns,
        0 < q.2 ∧ ∃ t ∈ turns, t.speaker = q.1 ∧ 0 < overlap_duration seg t)
    ∧ ((∀ t ∈ turns, ¬0 < overlap_duration seg t) → speaker_times seg turns = []) :=
  ⟨fun k => getD_speaker_times seg turns k,
   fun q hq => ⟨speaker_times_pos seg turns q hq, speaker_times_key seg turns q hq⟩,
   speaker_times_eq_nil seg turns⟩

/-- Witness for C1 at a segment `[0,1]` and a single disjoint turn `[2,3]`:
the matcher returns the empty mapping. -/
theorem overlap_matcher_correct_witness :
    speaker_times ⟨0, 1, "x"⟩ [⟨2, 3, "A"⟩] = [] :=
  (overlap_matcher_correct ⟨0, 1, "x"⟩ [⟨2, 3, "A"⟩]).2.2 (by
    intro t ht
    simp only [List.mem_singleton] at ht
    subst ht
    norm_num [overlap_duration])

/-- C2: the talk-time mapping stores the sum of `end - start` over every
utterance of each speaker (including `"UNKNOWN"`); whenever a speaker `A`
occurs and its aggregate strictly exceeds every other occurring speaker's,
`A` is the computed teacher and all of `A`'s utterances are labelled
`"Teacher"` (regardless of how many segments `A` spoke); on empty input the
output is empty, so no teacher is designated. -/
theorem teacher_by_aggregate_talk_time (utts : List FusedUtterance) :
    (∀ k, getD (speaker_talk_time utts) k 0 = (utts.map (talk_contribution k)).sum)
    ∧ (∀ A : String, (∃ u ∈ utts, u.speaker = A) →
        (∀ B : String, (∃ u ∈ utts, u.speaker = B) → B ≠ A →
          (utts.map (talk_contribution B)).sum < (utts.map (talk_contribution A)).sum) →
        teacher_label utts = A ∧
          ∀ r ∈ assign_roles utts, r.speaker = A → r.speaker_role = "Teacher")
    ∧ assign_roles [] = [] := by
  refine ⟨fun k => getD_speaker_talk_time utts k, ?_, rfl⟩
  intro A hA hdom
  have hteach := teacher_label_of_strict utts A hA hdom
  refine ⟨hteach, ?_⟩
  intro r hr hsp
  exact role_of_teacher_speaker utts r hr (hsp.trans hteach.symm)

/-- Witness for C2 at the three-utterance scenario of the spec (`A` speaks one
10-second segment, `B` two 4-second segments): `A` is the teacher by aggregate
time. -/
theorem teacher_by_aggregate_talk_time_witness :
    teacher_label [⟨0, 10, "", "A"⟩, ⟨10, 14, "", "B"⟩, ⟨14, 18, "", "B"⟩] = "A" :=
  ((teacher_by_aggregate_talk_time
      [⟨0, 10, "", "A"⟩, ⟨10, 14, "", "B"⟩, ⟨14, 18, "", "B"⟩]).2.1 "A"
    ⟨⟨0, 10, "", "A"⟩, by simp, rfl⟩
    (by
      intro B hB hne
      obtain ⟨u, hu, hus⟩ := hB
      simp only [List.mem_cons, List.not_mem_nil, or_false] at hu
      rcases hu with rfl | rfl | rfl
      · exact absurd hus.symm hne
      · rw [← hus]
        simp [talk_contribution]
        norm_num
      · rw [← hus]
        simp [talk_contribution]
        norm_num)).1

/-- C3 counterexample: when a diarization turn's speaker label is literally the
sentinel string `"UNKNOWN"` and it overlaps the segment, the fused speaker is
`"UNKNOWN"` while the overlap mapping is non-empty and positive overlap exists —
refuting the claimed equivalence as stated for every collection of turns. -/
theorem unknown_sentinel_collision :
    (fuse_segment [⟨0, 1, "UNKNOWN"⟩] ⟨0, 1, "hi"⟩).speaker = "UNKNOWN"
    ∧ speaker_times ⟨0, 1, "hi"⟩ [⟨0, 1, "UNKNOWN"⟩] ≠ []
    ∧ 0 < overlap_duration ⟨0, 1, "hi"⟩ ⟨0, 1, "UNKNOWN"⟩ := by
  refine ⟨?_, ?_, ?_⟩ <;>
    norm_num [fuse_segment, dominant_speaker, speaker_times, overlap_duration,
      addTo, maxPair]

/-- C3 (amended): provided no diarization turn carries the sentinel label
`"UNKNOWN"` as its speaker id, the fused utterance's speaker is `"UNKNOWN"` iff
the overlap mapping is empty, and the mapping is empty iff no turn has positive
overlap with the segment's span. -/
theorem unknown_iff_no_overlap (seg : TranscriptionSegment)
    (turns : List DiarizationTurn)
    (hsent : ∀ t ∈ turns, t.speaker ≠ "UNKNOWN") :
    ((fuse_segment turns seg).speaker = "UNKNOWN" ↔ speaker_times seg turns = [])
    ∧ (speaker_times seg turns = [] ↔ ∀ t ∈ turns, ¬0 < overlap_duration seg t) := by
  constructor
  · constructor
    · intro h
      by_contra hne
      cases hmp : maxPair (speaker_times seg turns) with
      | none => exact hne ((maxPair_eq_none _).1 hmp)
      | some p =>
        have hp := maxPair_mem _ p hmp
        obtain ⟨t, ht, hts, _⟩ := speaker_times_key seg turns p hp
        have hspk : (fuse_segment turns seg).speaker = p.1 := by
          simp [fuse_segment, dominant_speaker, hmp]
        have hpu : p.1 = "UNKNOWN" := by rw [← hspk]; exact h
        exact hsent t ht (hts.trans hpu)
    · intro h
      simp [fuse_segment, dominant_speaker, h, maxPair]
  · constructor
    · intro h t ht hpos
      exact speaker_times_ne_nil seg turns t ht hpos h
    · exact speaker_times_eq_nil seg turns

/-- Witness for the amended C3: segment `[0,1]` against the single disjoint
turn `[2,3]` of speaker `"A"` resolves to `"UNKNOWN"`. -/
theorem unknown_iff_no_overlap_witness :
    (fuse_segment [⟨2, 3, "A"⟩] ⟨0, 1, "x"⟩).speaker = "UNKNOWN" :=
  ((unknown_iff_no_overlap ⟨0, 1, "x"⟩ [⟨2, 3, "A"⟩] (by simp)).1).mpr
    ((unknown_iff_no_overlap ⟨0, 1, "x"⟩ [⟨2, 3, "A"⟩] (by simp)).2.mpr (by
      intro t ht
      simp only [List.mem_singleton] at ht
      subst ht
      norm_num [overlap_duration]))

/-- C4: fusion is a 1:1, order-preserving map over the transcription segments —
the output has the same length, and the `i`-th record carries the `i`-th
segment's start, end and whitespace-trimmed text. -/
theorem fuse_preserves_segments (segments : List TranscriptionSegment)
    (turns : List DiarizationTurn) :
    (fuse segments turns).length = segments.length
    ∧ (fuse segments turns).map (fun u => (u.start, u.stop, u.text))
        = segments.map (fun s => (s.start, s.stop, s.text.trim)) := by
  constructor
  · simp [fuse]
  · rw [fuse, List.map_map]
    rfl

/-- C5 counterexample: a single unmatched utterance makes `"UNKNOWN"` the
talk-time argmax, so the utterance with speaker `"UNKNOWN"` is labelled
`"Teacher"` — refuting both that such utterances always get `"Unknown"` and
that the `"UNKNOWN"` key is never eligible to become teacher. -/
theorem unknown_assigned_teacher :
    (assign_roles [⟨0, 1, "x", "UNKNOWN"⟩]).map (fun r => r.speaker_role) = ["Teacher"]
    ∧ (⟨0, 1, "x", "UNKNOWN"⟩ : FusedUtterance).speaker = "UNKNOWN" := by
  constructor
  · norm_num [assign_roles, assign_roles_aux, teacher_label, speaker_talk_time,
      addTo, dominant_speaker, maxPair, lookupStudent]
  · rfl

/-- C5 (amended): an utterance whose resolved speaker is `"UNKNOWN"` receives
role `"Unknown"` when the computed teacher id is not `"UNKNOWN"`; but the
`"UNKNOWN"` key does participate in the teacher argmax, and when the teacher id
itself is `"UNKNOWN"` such utterances receive `"Teacher"` instead. -/
theorem unknown_role_amended (utts : List FusedUtterance) :
    ∀ r ∈ assign_roles utts, r.speaker = "UNKNOWN" →
      r.speaker_role = if teacher_label utts = "UNKNOWN" then "Teacher" else "Unknown" := by
  intro r hr hsp
  rw [assign_roles_eq] at hr
  obtain ⟨u, hu, rfl⟩ := List.mem_map.1 hr
  have hsp' : u.speaker = "UNKNOWN" := hsp
  by_cases ht : teacher_label utts = "UNKNOWN"
  · rw [if_pos ht]
    simp [roleSpec, hsp', ht]
  · rw [if_neg ht]
    have ht' : ¬("UNKNOWN" = teacher_label utts) := fun h => ht h.symm
    simp [roleSpec, hsp', ht']

/-- Witness for the amended C5: with a 1-second `"UNKNOWN"` utterance and a
5-second `"A"` utterance, the teacher is `"A"` and the unmatched utterance is
labelled `"Unknown"`. -/
theorem unknown_role_amended_witness :
    ((assign_roles [⟨0, 1, "x", "UNKNOWN"⟩, ⟨1, 6, "y", "A"⟩]).headD
      ⟨⟨0, 0, "", ""⟩, ""⟩).speaker_role = "Unknown" := by
  have h1 : speaker_talk_time [⟨0, 1, "x", "UNKNOWN"⟩, ⟨1, 6, "y", "A"⟩]
      = [("UNKNOWN", 1), ("A", 5)] := by
    simp [speaker_talk_time, addTo]
    norm_num
  have hteach : teacher_label [⟨0, 1, "x", "UNKNOWN"⟩, ⟨1, 6, "y", "A"⟩] = "A" := by
    rw [teacher_label, h1]
    simp [dominant_speaker, maxPair]
  have hcomp : assign_roles [⟨0, 1, "x", "UNKNOWN"⟩, ⟨1, 6, "y", "A"⟩]
      = [⟨⟨0, 1, "x", "UNKNOWN"⟩, "Unknown"⟩, ⟨⟨1, 6, "y", "A"⟩, "Teacher"⟩] := by
    rw [assign_roles, hteach]
    simp [assign_roles_aux, lookupStudent]
  have hmem : (⟨⟨0, 1, "x", "UNKNOWN"⟩, "Unknown"⟩ : RoleLabeledUtterance)
      ∈ assign_roles [⟨0, 1, "x", "UNKNOWN"⟩, ⟨1, 6, "y", "A"⟩] := by
    rw [hcomp]
    exact List.mem_cons_self _ _
  have h := unknown_role_amended [⟨0, 1, "x", "UNKNOWN"⟩, ⟨1, 6, "y", "A"⟩] _ hmem rfl
  calc ((assign_roles [⟨0, 1, "x", "UNKNOWN"⟩, ⟨1, 6, "y", "A"⟩]).headD
          ⟨⟨0, 0, "", ""⟩, ""⟩).speaker_role
      = (⟨⟨0, 1, "x", "UNKNOWN"⟩, "Unknown"⟩ : RoleLabeledUtterance).speaker_role := by
        rw [hcomp]
        rfl
    _ = if teacher_label [⟨0, 1, "x", "UNKNOWN"⟩, ⟨1, 6, "y", "A"⟩] = "UNKNOWN"
          then "Teacher" else "Unknown" := h
    _ = "Unknown" := by rw [hteach]; simp

/-- C6: every utterance whose speaker equals the computed teacher id receives
role `"Teacher"`; the rule has no carve-out for the sentinel, so it applies
even when the teacher id resolved to `"UNKNOWN"` (all-unmatched input). -/
theorem teacher_role_any_teacher_id (utts : List FusedUtterance) :
    ∀ r ∈ assign_roles utts, r.speaker = teacher_label utts →
      r.speaker_role = "Teacher" :=
  role_of_teacher_speaker utts

/-- Witness for C6 in the sentinel case: a single unmatched utterance makes
`"UNKNOWN"` the teacher id and the utterance is labelled `"Teacher"`. -/
theorem teacher_role_any_teacher_id_witness :
    ((assign_roles [⟨0, 1, "x", "UNKNOWN"⟩]).headD
      ⟨⟨0, 0, "", ""⟩, ""⟩).speaker_role = "Teacher" := by
  have h1 : speaker_talk_time [⟨0, 1, "x", "UNKNOWN"⟩] = [("UNKNOWN", 1)] := by
    simp [speaker_talk_time, addTo]
  have hteach : teacher_label [⟨0, 1, "x", "UNKNOWN"⟩] = "UNKNOWN" := by
    rw [teacher_label, h1]
    simp [dominant_speaker, maxPair]
  have hcomp : assign_roles [⟨0, 1, "x", "UNKNOWN"⟩]
      = [⟨⟨0, 1, "x", "UNKNOWN"⟩, "Teacher"⟩] := by
    rw [assign_roles, hteach]
    simp [assign_roles_aux]
  have h := teacher_role_any_teacher_id [⟨0, 1, "x", "UNKNOWN"⟩]
    ⟨⟨0, 1, "x", "UNKNOWN"⟩, "Teacher"⟩
    (by rw [hcomp]; exact List.mem_cons_self _ _)
    (by rw [hteach])
  calc ((assign_roles [⟨0, 1, "x", "UNKNOWN"⟩]).headD
          ⟨⟨0, 0, "", ""⟩, ""⟩).speaker_role
      = (⟨⟨0, 1, "x", "UNKNOWN"⟩, "Teacher"⟩ : RoleLabeledUtterance).speaker_role := by
        rw [hcomp]
        rfl
    _ = "Teacher" := h

/-- C7: student numbering is stable and monotonic. (i) An utterance whose
speaker is neither the teacher nor `"UNKNOWN"` is labelled `"Student N"` where
`N` is the 1-based position of its speaker in the order of first appearance of
student speakers — so the first such speaker gets `"Student 1"` and each new
one the next integer; (ii) two utterances by the same student speaker always
carry the same label (later occurrences reuse it). -/
theorem student_numbering_stable (utts : List FusedUtterance) :
    (∀ i (h : i < utts.length),
      (utts.get ⟨i, h⟩).speaker ≠ teacher_label utts →
      (utts.get ⟨i, h⟩).speaker ≠ "UNKNOWN" →
      ((assign_roles utts).get? i).map (fun r => r.speaker_role)
        = some ("Student " ++ toString
            (firstIdx (student_order (teacher_label utts) [] utts)
              (utts.get ⟨i, h⟩).speaker + 1)))
    ∧ (∀ i j (hi : i < utts.length) (hj : j < utts.length),
        (utts.get ⟨i, hi⟩).speaker = (utts.get ⟨j, hj⟩).speaker →
        (utts.get ⟨i, hi⟩).speaker ≠ teacher_label utts →
        (utts.get ⟨i, hi⟩).speaker ≠ "UNKNOWN" →
        ((assign_roles utts).get? i).map (fun r => r.speaker_role)
          = ((assign_roles utts).get? j).map (fun r => r.speaker_role)) := by
  have hmain : ∀ i (h : i < utts.length),
      (utts.get ⟨i, h⟩).speaker ≠ teacher_label utts →
      (utts.get ⟨i, h⟩).speaker ≠ "UNKNOWN" →
      ((assign_roles utts).get? i).map (fun r => r.speaker_role)
        = some ("Student " ++ toString
            (firstIdx (student_order (teacher_label utts) [] utts)
              (utts.get ⟨i, h⟩).speaker + 1)) := by
    intro i h hne hu
    have hne' : utts[i].speaker ≠ teacher_label utts := hne
    have hu' : utts[i].speaker ≠ "UNKNOWN" := hu
    rw [assign_roles_eq, List.get?_map, List.get?_eq_get h]
    simp [roleSpec, hne', hu']
  refine ⟨hmain, ?_⟩
  intro i j hi hj hsp hne hu
  rw [hmain i hi hne hu, hmain j hj (hsp ▸ hne) (hsp ▸ hu), hsp]

/-- Witness for C7: teacher `"A"`, then students `"B"`, `"C"`, `"B"` — the
second `"B"` utterance (index 3) reuses the label `"Student 1"`. -/
theorem student_numbering_stable_witness :
    ((assign_roles [⟨0, 10, "", "A"⟩, ⟨10, 11, "", "B"⟩, ⟨11, 12, "", "C"⟩,
        ⟨12, 13, "", "B"⟩]).get? 3).map (fun r => r.speaker_role)
      = some "Student 1" := by
  have h1 : speaker_talk_time [⟨0, 10, "", "A"⟩, ⟨10, 11, "", "B"⟩,
      ⟨11, 12, "", "C"⟩, ⟨12, 13, "", "B"⟩]
      = [("A", 10), ("B", 2), ("C", 1)] := by
    simp [speaker_talk_time, addTo]
    norm_num
  have hteach : teacher_label [⟨0, 10, "", "A"⟩, ⟨10, 11, "", "B"⟩,
      ⟨11, 12, "", "C"⟩, ⟨12, 13, "", "B"⟩] = "A" := by
    rw [teacher_label, h1]
    simp [dominant_speaker, maxPair]
    norm_num
  have hstu : student_order "A" [] [⟨0, 10, "", "A"⟩, ⟨10, 11, "", "B"⟩,
      ⟨11, 12, "", "C"⟩, ⟨12, 13, "", "B"⟩] = ["B", "C"] := by
    simp [student_order]
  have happ := (student_numbering_stable [⟨0, 10, "", "A"⟩, ⟨10, 11, "", "B"⟩,
      ⟨11, 12, "", "C"⟩, ⟨12, 13, "", "B"⟩]).1 3 (by simp)
    (by rw [hteach]; decide) (by decide)
  rw [happ, hteach, hstu]
  decide

/-- C8: role assignment is idempotent — applying it to the fused content of
its own output yields exactly the same labelled output as applying it once. -/
theorem assign_roles_idempotent (utts : List FusedUtterance) :
    assign_roles ((assign_roles utts).map (fun r => r.toFusedUtterance))
      = assign_roles utts := by
  rw [assign_roles_map_toFused]

/-- C9: role assignment only augments — stripping the added `speaker_role`
field from the output returns the input exactly (same order and count, each
record's start, end, text and speaker unchanged), also position by position. -/
theorem assign_roles_only_augments (utts : List FusedUtterance) :
    (assign_roles utts).length = utts.length
    ∧ (assign_roles utts).map (fun r => r.toFusedUtterance) = utts
    ∧ ∀ i, ((assign_roles utts).get? i).map (fun r => r.toFusedUtterance)
        = utts.get? i := by
  refine ⟨?_, assign_roles_map_toFused utts, ?_⟩
  · have h := congrArg List.length (assign_roles_map_toFused utts)
    simpa using h
  · intro i
    have h2 : ((assign_roles utts).map (fun r => r.toFusedUtterance)).get? i
        = utts.get? i := by
      rw [assign_roles_map_toFused]
    rw [List.get?_map] at h2
    exact h2

/-- C10: for every non-empty input, the computed teacher id is the speaker of
some input utterance (even when all speakers are `"UNKNOWN"`), and therefore
some output utterance is labelled `"Teacher"`. -/
theorem nonempty_has_teacher (utts : List FusedUtterance) (hne : utts ≠ []) :
    (∃ u ∈ utts, u.speaker = teacher_label utts)
    ∧ ∃ r ∈ assign_roles utts, r.speaker_role = "Teacher" := by
  obtain ⟨u0, hu0⟩ : ∃ u, u ∈ utts := by
    cases utts with
    | nil => exact absurd rfl hne
    | cons a l => exact ⟨a, List.mem_cons_self _ _⟩
  obtain ⟨q, hq, hqk⟩ := speaker_talk_time_hasKey utts u0 hu0
  have hmne : speaker_talk_time utts ≠ [] := by
    intro hnil
    rw [hnil] at hq
    simp at hq
  obtain ⟨p, hp⟩ : ∃ p, maxPair (speaker_talk_time utts) = some p := by
    cases hmp : maxPair (speaker_talk_time utts) with
    | none => exact absurd ((maxPair_eq_none _).1 hmp) hmne
    | some p => exact ⟨p, rfl⟩
  have hteach : teacher_label utts = p.1 := by
    unfold teacher_label dominant_speaker
    rw [hp]
  obtain ⟨u, hu, hus⟩ := speaker_talk_time_key utts p (maxPair_mem _ p hp)
  have hexists : ∃ u' ∈ utts, u'.speaker = teacher_label utts :=
    ⟨u, hu, by rw [hteach]; exact hus⟩
  refine ⟨hexists, ?_⟩
  obtain ⟨u', hu', hu's⟩ := hexists
  refine ⟨⟨u', roleSpec (teacher_label utts)
    (student_order (teacher_label utts) [] utts) u'⟩, ?_, ?_⟩
  · rw [assign_roles_eq]
    exact List.mem_map_of_mem _ hu'
  · show roleSpec (teacher_label utts) (student_order (teacher_label utts) [] utts) u'
      = "Teacher"
    simp [roleSpec, hu's]

/-- Witness for C10: a one-utterance input produces a `"Teacher"` label. -/
theorem nonempty_has_teacher_witness :
    ∃ r ∈ assign_roles [⟨0, 1, "x", "A"⟩], r.speaker_role = "Teacher" :=
  (nonempty_has_teacher [⟨0, 1, "x", "A"⟩] (by simp)).2

end TeachSynch
